import Mathlib

/-
Shallow embedding of experiments/synthetic_data/models.py.

Data lives in environments: pairs of a feature matrix (a list of rows,
each row a function from Fin d to the rationals) and a target vector
(a list of rationals).  Floating point arithmetic is modelled by exact
rational (or, where logarithms and real powers appear, real) arithmetic.
Library regressions (sklearn LinearRegression(fit_intercept=False).fit)
and the scipy statistical primitives (ttest_ind, f.cdf) are opaque
library calls; they are modelled as explicit function parameters, so
every theorem quantifies over their possible behaviours.
-/

namespace Models

/-- A coefficient vector of dimension d. -/
abbrev Vec (d : ℕ) := Fin d → ℚ

/-- A square matrix of dimension d (phi in InvariantRiskMinimization). -/
abbrev Mat (d : ℕ) := Fin d → Fin d → ℚ

/-- One environment: a feature matrix given as a list of rows, and targets. -/
structure Env (d : ℕ) where
  x : List (Vec d)
  y : List ℚ
deriving DecidableEq

/-- Dot product of a row with a coefficient vector. -/
def dotQ {d : ℕ} (v w : Vec d) : ℚ := ∑ j, v j * w j

/-- torch.cat of the feature matrices of a list of environments (row-wise). -/
def x_allOf {d : ℕ} (envs : List (Env d)) : List (Vec d) :=
  (envs.map Env.x).flatten

/-- torch.cat of the target vectors of a list of environments. -/
def y_allOf {d : ℕ} (envs : List (Env d)) : List ℚ :=
  (envs.map Env.y).flatten

/-!  EmpiricalRiskMinimizer (models.py lines 169-178).
`ols` stands for `LinearRegression(fit_intercept=False).fit(X, y).coef_`,
an opaque library call: a function from data to a coefficient vector. -/

/-- EmpiricalRiskMinimizer.__init__: pool all environments with torch.cat and
fit a single regression on the pooled data (models.py lines 170-175). -/
def ermW {d : ℕ} (ols : List (Vec d) → List ℚ → Vec d)
    (envs : List (Env d)) : Vec d :=
  ols (x_allOf envs) (y_allOf envs)

/-- Spec-side definition (for the refinement claim): the row-wise
concatenation of all environments' feature matrices, built directly by
appending each environment's rows in order. -/
def rowConcatX {d : ℕ} (envs : List (Env d)) : List (Vec d) :=
  envs.foldr (fun e acc => e.x ++ acc) []

/-- Spec-side definition: the concatenation of all environments' targets. -/
def rowConcatY {d : ℕ} (envs : List (Env d)) : List ℚ :=
  envs.foldr (fun e acc => e.y ++ acc) []

/-!  EnsembleERM (models.py lines 180-194). -/

/-- EnsembleERM.__init__: start from the zero vector (the pooled
coefficients times 0.0), add each environment's independently fitted
coefficients, then divide elementwise by the number of environments
(models.py lines 181-191). -/
def ensembleW {d : ℕ} (ols : List (Vec d) → List ℚ → Vec d)
    (envs : List (Env d)) : Vec d :=
  let w := envs.foldl (fun w e => w + ols e.x e.y) (fun _ => 0)
  fun j => w j / envs.length

/-- Spec-side definition: the arithmetic mean, with uniform weight
1/(number of environments), of the per-environment coefficient vectors. -/
def uniformAvgW {d : ℕ} (ols : List (Vec d) → List ℚ → Vec d)
    (envs : List (Env d)) : Vec d :=
  fun j => (1 / (envs.length : ℚ)) * (envs.map (fun e => ols e.x e.y j)).sum

/-!  InvariantRiskMinimization (models.py lines 30-88). -/

/-- torch.eye(dim_x, dim_x): the initial value of phi (line 59). -/
def eyeQ (d : ℕ) : Mat d := fun i j => if i = j then 1 else 0

/-- torch.ones(dim_x, 1): the value assigned to w (line 60). -/
def onesQ (d : ℕ) : Vec d := fun _ => 1

/-- phi @ w, the value returned by InvariantRiskMinimization.solution()
(lines 87-88). -/
def irmSolution {d : ℕ} (phi : Mat d) (w : Vec d) : Vec d :=
  fun i => dotQ (phi i) w

/-- The mutable state of InvariantRiskMinimization.train: the Adam
optimizer's internal state (abstract, of type sigma), phi, and w. -/
structure IRMTrainState (sigma : Type) (d : ℕ) where
  opt : sigma
  phi : Mat d
  w : Vec d

/-- The state on entry to the training loop (lines 59-62): phi is the
identity matrix, w the all-ones vector, and the optimizer starts in its
initial state. -/
def irmTrainInit {sigma : Type} (d : ℕ) (opt0 : sigma) : IRMTrainState sigma d :=
  ⟨opt0, eyeQ d, onesQ d⟩

/-- One iteration of the training loop (lines 65-77).  The loss, the
penalty and their gradients may depend on the whole state (and on the
environments and reg, over which the abstract adam step closes), but
opt.step() writes only to phi, the single parameter handed to
torch.optim.Adam on line 62; w is carried over unchanged. -/
def irmTrainStep {sigma : Type} {d : ℕ}
    (adam : sigma → Mat d → Vec d → sigma × Mat d)
    (s : IRMTrainState sigma d) : IRMTrainState sigma d :=
  let r := adam s.opt s.phi s.w
  ⟨r.1, r.2, s.w⟩

/-- The training state after n iterations of the loop. -/
def irmTrainRun {sigma : Type} {d : ℕ}
    (adam : sigma → Mat d → Vec d → sigma × Mat d)
    (opt0 : sigma) (n : ℕ) : IRMTrainState sigma d :=
  (irmTrainStep adam)^[n] (irmTrainInit d opt0)

/-- The validation error (x_val @ solution - y_val).pow(2).mean()
(line 40). -/
def valErr {d : ℕ} (x_val : List (Vec d)) (y_val : List ℚ) (sol : Vec d) : ℚ :=
  (List.zipWith (fun row yv => (dotQ row sol - yv)^2) x_val y_val).sum
    / x_val.length

/-- The grid of regularization weights (line 38). -/
def irmGrid : List ℚ := [0, 1/100000, 1/10000, 1/1000, 1/100, 1/10]

/-- The selection state of InvariantRiskMinimization.__init__
(lines 32-33): best_err starts at 1e6, best_reg at 0, and best_phi is
unassigned (None) until line 49 first runs. -/
structure IRMSel (d : ℕ) where
  best_err : ℚ
  best_reg : ℚ
  best_phi : Option (Mat d)

/-- The validation error of the candidate at a regularization weight:
train yields phi as a function of reg, and solution() is phi @ w with w
the all-ones vector that training never modifies. -/
def irmCandErr {d : ℕ} (x_val : List (Vec d)) (y_val : List ℚ)
    (train : ℚ → Mat d) (reg : ℚ) : ℚ :=
  valErr x_val y_val (irmSolution (train reg) (onesQ d))

/-- The body of the selection loop (lines 39-49): train at reg, compute
the validation error of solution(), and keep the candidate when its error
is strictly below the best so far. -/
def irmSelStep {d : ℕ} (x_val : List (Vec d)) (y_val : List ℚ)
    (train : ℚ → Mat d) (s : IRMSel d) (reg : ℚ) : IRMSel d :=
  let phi := train reg
  let err := irmCandErr x_val y_val train reg
  if err < s.best_err then ⟨err, reg, some phi⟩ else s

/-- The selection loop over the whole grid (lines 38-49). -/
def irmSelect {d : ℕ} (x_val : List (Vec d)) (y_val : List ℚ)
    (train : ℚ → Mat d) : IRMSel d :=
  irmGrid.foldl (irmSelStep x_val y_val train) ⟨1000000, 0, none⟩

/-- InvariantRiskMinimization.__init__ (lines 31-50): the validation data
is the last environment, and each candidate is trained on all environments
but the last.  train is the trained phi as a function of the training
environments and the regularization weight. -/
def irmConstruct {d : ℕ} (envs : List (Env d))
    (train : List (Env d) → ℚ → Mat d) : IRMSel d :=
  let ev := envs.getLastD ⟨[], []⟩
  irmSelect ev.x ev.y (train envs.dropLast)

/-- The validation error of the candidate at reg, as computed by the
constructor loop for a given environment list. -/
def irmValErrOf {d : ℕ} (envs : List (Env d))
    (train : List (Env d) → ℚ → Mat d) (reg : ℚ) : ℚ :=
  let ev := envs.getLastD ⟨[], []⟩
  irmCandErr ev.x ev.y (train envs.dropLast) reg

/-!  InvariantCausalPrediction (models.py lines 91-166).  The library
calls are abstract: fitL models LinearRegression(fit_intercept=False) on a
column-selected design matrix (returning one coefficient per selected
column), and the scipy primitives ttest_ind and f.cdf are the fields of an
ICPTests record. -/

/-- The opaque scipy statistical primitives used by mean_var_test:
ttest_ind(x, y, equal_var=False).pvalue and f.cdf(ratio, dfn, dfd). -/
structure ICPTests where
  ttest : List ℚ → List ℚ → ℚ
  fcdf : ℚ → ℕ → ℕ → ℚ

/-- np.mean of a list of rationals. -/
def meanQ (l : List ℚ) : ℚ := l.sum / l.length

/-- np.var with ddof = 1: the unbiased sample variance (lines 154-156). -/
def varQ (l : List ℚ) : ℚ :=
  (l.map (fun a => (a - meanQ l)^2)).sum / ((l.length : ℚ) - 1)

/-- The columns of one row selected by a feature subset
(x_all[:, subset]). -/
def selCols {d : ℕ} (S : List (Fin d)) (row : Vec d) : List ℚ := S.map row

/-- Dot product of two rational lists: the prediction of a fitted
regression on one selected row. -/
def dotL (a b : List ℚ) : ℚ := (List.zipWith (fun x y => x * y) a b).sum

/-- InvariantCausalPrediction.mean_var_test (lines 152-160): twice the
minimum of the Welch t-test p-value on the means and the two-sided F-test
p-value on the variances. -/
def mean_var_test (T : ICPTests) (x y : List ℚ) : ℚ :=
  let pvalue_mean := T.ttest x y
  let pvalue_var1 := 1 - T.fcdf (varQ x / varQ y) (x.length - 1) (y.length - 1)
  let pvalue_var2 := 2 * min pvalue_var1 (1 - pvalue_var1)
  2 * min pvalue_mean pvalue_var2

/-- Residuals y - x_s @ coef on the given rows (lines 124-125). -/
def residualsOf {d : ℕ} (coefs : List ℚ) (S : List (Fin d))
    (X : List (Vec d)) (y : List ℚ) : List ℚ :=
  List.zipWith (fun row yv => yv - dotL (selCols S row) coefs) X y

/-- Lines 116-127: the per-environment p-values of a feature subset.  The
regression is fitted once on the pooled selected columns; for each
environment e, the residuals inside e (rows with e_all == e) are tested
against the residuals of all other environments (rows with e_all != e,
i.e. the concatenation of the remaining environments in order). -/
def icpPValues {d : ℕ} (T : ICPTests)
    (fitL : List (List ℚ) → List ℚ → List ℚ)
    (envs : List (Env d)) (S : List (Fin d)) : List ℚ :=
  let coefs := fitL ((x_allOf envs).map (selCols S)) (y_allOf envs)
  (List.range envs.length).map (fun e =>
    let envE := envs.getD e ⟨[], []⟩
    mean_var_test T (residualsOf coefs S envE.x envE.y)
      (residualsOf coefs S (x_allOf (envs.eraseIdx e))
        (y_allOf (envs.eraseIdx e))))

/-- Python's min over a non-empty list; the empty case, which Python
rejects, is given the junk value 0. -/
def minQ : List ℚ → ℚ
  | [] => 0
  | a :: t => t.foldl min a

/-- InvariantCausalPrediction.powerset (lines 162-163): all subsets of the
feature indices.  The Python enumeration goes by increasing subset size;
List.sublists enumerates the same collection of subsets in a different
order, each subset listed in increasing index order. -/
def icpPowerset (d : ℕ) : List (List (Fin d)) := (List.finRange d).sublists

/-- Lines 111-133: the loop collecting the accepted subsets.  Empty
subsets are skipped, and a subset is appended exactly when
min(p_values) * len(environments) is strictly greater than alpha. -/
def icpAcceptedSubsets {d : ℕ} (T : ICPTests)
    (fitL : List (List ℚ) → List ℚ → List ℚ)
    (envs : List (Env d)) (alpha : ℚ) : List (List (Fin d)) :=
  (icpPowerset d).foldl (fun acc S =>
    if S.length = 0 then acc
    else if minQ (icpPValues T fitL envs S) * (envs.length : ℚ) > alpha
      then acc ++ [S]
    else acc) []

/-- set.intersection of a non-empty list of subsets (line 138); the empty
case, which Python rejects, gives [].  Since every subset produced by
icpPowerset lists its indices in increasing order, the result is the
sorted list of the intersection, matching list(set(...)) on small ints. -/
def intersectAll {d : ℕ} : List (List (Fin d)) → List (Fin d)
  | [] => []
  | h :: t => t.foldl (fun acc s => acc.filter (fun j => j ∈ s)) h

/-- Lines 137-150: the final coefficients.  With no accepted subset the
coefficients are all zero; otherwise they start at zero and, when the
intersection of the accepted subsets is non-empty, the pooled regression
is refitted on the intersection's columns and written into those
coordinates (coefficients[features] = reg.coef_). -/
def icpCoefficients {d : ℕ} (T : ICPTests)
    (fitL : List (List ℚ) → List ℚ → List ℚ)
    (envs : List (Env d)) (alpha : ℚ) : Vec d :=
  let accepted := icpAcceptedSubsets T fitL envs alpha
  if accepted.length ≠ 0 then
    let feats := intersectAll accepted
    if feats.length ≠ 0 then
      let coefs := fitL ((x_allOf envs).map (selCols feats)) (y_allOf envs)
      fun j => if j ∈ feats then coefs.getD (feats.indexOf j) 0 else 0
    else fun _ => 0
  else fun _ => 0

/-- A trivial instantiation of the statistical primitives: every p-value
and cdf is 0. -/
def icpTestsZero : ICPTests := ⟨fun _ _ => 0, fun _ _ _ => 0⟩

/-- A trivial regression oracle: always the single coefficient 1. -/
def fitLOne : List (List ℚ) → List ℚ → List ℚ := fun _ _ => [1]

/-!  AdaBoostERM (models.py lines 196-247).  The per-round numerical
quantities (normalized errors, beta, the exponential-weights update, the
classifier weight) are modelled over the reals, since lines 229-232 use a
logarithm and a real power. -/

/-- np.max of a non-empty list; the empty case, which numpy rejects, is
given the junk value 0. -/
noncomputable def maxR : List ℝ → ℝ
  | [] => 0
  | a :: t => t.foldl max a

/-- np.mean of a list of reals. -/
noncomputable def meanR (l : List ℝ) : ℝ := l.sum / l.length

/-- Line 227: env_errors /= np.max(env_errors). -/
noncomputable def normErrors (l : List ℝ) : List ℝ := l.map (fun e => e / maxR l)

/-- Lines 228-230: the classifier weight np.log(beta)/2.0 of a round with
average normalized error avg, where beta = (1 - avg)/avg. -/
noncomputable def adaClassifierWeight (avg : ℝ) : ℝ := Real.log ((1 - avg) / avg) / 2

/-- Lines 227-233: one round's update of the environment weights.  The raw
per-environment squared errors are normalized by their max, beta is
computed from the average normalized error, each weight is multiplied by
beta ** (1 - env_error), and the result is divided by its max. -/
noncomputable def adaEnvWeightUpdate (envWeights rawErrors : List ℝ) : List ℝ :=
  let ne := normErrors rawErrors
  let avg := meanR ne
  let beta := (1 - avg) / avg
  let m := List.zipWith (fun w e => w * Real.rpow beta (1 - e)) envWeights ne
  m.map (fun w => w / maxR m)

/-- num_classifiers (line 198). -/
def numClassifiers : ℕ := 10

/-- Lines 238-242: the coefficient vector stored by AdaBoostERM.__init__.
w starts at zero, accumulates classifier_weights[i] * classifiers[i].coef_
over all classifiers, and is stored as is: line 242 divides the stale
round-0 local w_average by sum(classifier_weights), not w. -/
def adaCombine {d : ℕ} (cw : List ℚ) (coefs : List (Vec d)) : Vec d :=
  (List.zipWith (fun c v => fun j => c * v j) cw coefs).foldl (· + ·) (fun _ => 0)

/-- Spec-side definition: the weighted average of the classifiers'
coefficient vectors, i.e. the weighted sum divided by the total classifier
weight. -/
def weightedAvgCoefs {d : ℕ} (cw : List ℚ) (coefs : List (Vec d)) : Vec d :=
  fun j => (List.zipWith (fun c v => c * v j) cw coefs).sum / cw.sum

/-- A concrete one-dimensional environment with one sample, x = 1, y = 1. -/
def envOne : Env 1 := ⟨[fun _ => 1], [1]⟩

/-- A concrete one-dimensional environment with one sample whose features
are zero and whose target is 2000: any linear solution has squared error
4000000 on it. -/
def envFar : Env 1 := ⟨[fun _ => 0], [2000]⟩

/-!  solution() as a state transformer, for the frame claim.  Every
solution() method only reads the learned parameters and returns them
(models.py lines 87-88, 165-166, 177-178, 193-194, 246-247); we model each
as a function from the estimator state to a pair (value, next state). -/

/-- The state of a fitted InvariantRiskMinimization: phi and w. -/
structure IRMState (d : ℕ) where
  phi : Mat d
  w : Vec d

/-- InvariantRiskMinimization.solution: return phi @ w, leaving state as is. -/
def IRMState.solutionS {d : ℕ} (s : IRMState d) : Vec d × IRMState d :=
  (fun i => dotQ (s.phi i) s.w, s)

/-- The state of a fitted InvariantCausalPrediction. -/
structure ICPState (d : ℕ) where
  coefficients : Vec d
  alpha : ℚ

/-- InvariantCausalPrediction.solution: return the coefficients. -/
def ICPState.solutionS {d : ℕ} (s : ICPState d) : Vec d × ICPState d :=
  (s.coefficients, s)

/-- The state of a fitted EmpiricalRiskMinimizer. -/
structure ERMState (d : ℕ) where
  w : Vec d

/-- EmpiricalRiskMinimizer.solution: return w. -/
def ERMState.solutionS {d : ℕ} (s : ERMState d) : Vec d × ERMState d :=
  (s.w, s)

/-- The state of a fitted EnsembleERM. -/
structure EnsembleState (d : ℕ) where
  w : Vec d

/-- EnsembleERM.solution: return w. -/
def EnsembleState.solutionS {d : ℕ} (s : EnsembleState d) : Vec d × EnsembleState d :=
  (s.w, s)

/-- The state of a fitted AdaBoostERM. -/
structure AdaState (d : ℕ) where
  w : Vec d

/-- AdaBoostERM.solution: return w. -/
def AdaState.solutionS {d : ℕ} (s : AdaState d) : Vec d × AdaState d :=
  (s.w, s)

/-!  Theorems. -/

lemma join_eq_foldrX {d : ℕ} (envs : List (Env d)) :
    x_allOf envs = rowConcatX envs := by
  induction envs with
  | nil => rfl
  | cons e t ih =>
      simp [x_allOf, rowConcatX] at ih ⊢
      exact ih

lemma join_eq_foldrY {d : ℕ} (envs : List (Env d)) :
    y_allOf envs = rowConcatY envs := by
  induction envs with
  | nil => rfl
  | cons e t ih =>
      simp [y_allOf, rowConcatY] at ih ⊢
      exact ih

/-- Claim C7: for every list of environments and every behaviour of the
least-squares library call, EmpiricalRiskMinimizer's solution equals the
coefficient vector fitted on the row-wise concatenation of all
environments' feature matrices and target vectors. -/
theorem erm_solution_pooled_ols {d : ℕ}
    (ols : List (Vec d) → List ℚ → Vec d) (envs : List (Env d)) :
    ermW ols envs = ols (rowConcatX envs) (rowConcatY envs) := by
  unfold ermW
  rw [join_eq_foldrX, join_eq_foldrY]

lemma sum_map_apply {d : ℕ} (f : Env d → Vec d) (l : List (Env d)) (j : Fin d) :
    (l.map f).sum j = (l.map (fun e => f e j)).sum := by
  induction l with
  | nil => rfl
  | cons e t ih => simp [ih]

lemma foldl_add_ols {d : ℕ} (ols : List (Vec d) → List ℚ → Vec d)
    (envs : List (Env d)) (w0 : Vec d) :
    envs.foldl (fun w e => w + ols e.x e.y) w0
      = w0 + (envs.map (fun e => ols e.x e.y)).sum := by
  induction envs generalizing w0 with
  | nil => simp
  | cons e t ih =>
      simp [List.foldl_cons, ih, add_assoc]

/-- Claim C8: for every non-empty list of environments, EnsembleERM's
solution is the arithmetic mean, with uniform weight 1/(number of
environments), of the per-environment regression coefficient vectors. -/
theorem ensemble_solution_uniform_average {d : ℕ}
    (ols : List (Vec d) → List ℚ → Vec d) (envs : List (Env d))
    (h : envs ≠ []) :
    ensembleW ols envs = uniformAvgW ols envs := by
  funext j
  have hn : (envs.length : ℚ) ≠ 0 :=
    Nat.cast_ne_zero.mpr (fun h0 => h (List.length_eq_zero.mp h0))
  unfold ensembleW uniformAvgW
  simp only [foldl_add_ols, Pi.add_apply]
  rw [zero_add, sum_map_apply, div_eq_mul_inv, one_div]
  ring

/-- Claim C8 witness: a concrete instantiation on one environment. -/
theorem ensemble_solution_uniform_average_witness :
    ensembleW (fun _ _ => fun _ => (2 : ℚ)) [Env.mk [fun _ => 1] [1]]
      = uniformAvgW (d := 1) (fun _ _ => fun _ => (2 : ℚ)) [Env.mk [fun _ => 1] [1]] :=
  ensemble_solution_uniform_average (fun _ _ => fun _ => (2 : ℚ))
    [Env.mk [fun _ => 1] [1]] (by simp)

/-- Claim C10: for every estimator state, solution() leaves the state
unchanged, and a second call to solution() on the resulting state returns
the same value as the first call. -/
theorem solution_pure_and_idempotent {d : ℕ}
    (s1 : IRMState d) (s2 : ICPState d) (s3 : ERMState d)
    (s4 : EnsembleState d) (s5 : AdaState d) :
    (s1.solutionS.2 = s1 ∧ (s1.solutionS.2).solutionS.1 = s1.solutionS.1) ∧
    (s2.solutionS.2 = s2 ∧ (s2.solutionS.2).solutionS.1 = s2.solutionS.1) ∧
    (s3.solutionS.2 = s3 ∧ (s3.solutionS.2).solutionS.1 = s3.solutionS.1) ∧
    (s4.solutionS.2 = s4 ∧ (s4.solutionS.2).solutionS.1 = s4.solutionS.1) ∧
    (s5.solutionS.2 = s5 ∧ (s5.solutionS.2).solutionS.1 = s5.solutionS.1) :=
  ⟨⟨rfl, rfl⟩, ⟨rfl, rfl⟩, ⟨rfl, rfl⟩, ⟨rfl, rfl⟩, ⟨rfl, rfl⟩⟩

lemma irmTrainRun_w {sigma : Type} {d : ℕ}
    (adam : sigma → Mat d → Vec d → sigma × Mat d) (opt0 : sigma) (n : ℕ) :
    (irmTrainRun adam opt0 n).w = onesQ d := by
  induction n with
  | zero => rfl
  | succ k ih =>
      unfold irmTrainRun at ih ⊢
      rw [Function.iterate_succ_apply']
      simpa [irmTrainStep] using ih

/-- Claim C3: throughout InvariantRiskMinimization.train, w stays the
all-ones vector (only phi is handed to the optimizer), so after any number
of iterations solution() equals phi @ 1, the vector of row sums of phi. -/
theorem irm_w_invariant_solution_rowsums {sigma : Type} {d : ℕ}
    (adam : sigma → Mat d → Vec d → sigma × Mat d) (opt0 : sigma) (n : ℕ) :
    (irmTrainRun adam opt0 n).w = onesQ d ∧
    irmSolution (irmTrainRun adam opt0 n).phi (irmTrainRun adam opt0 n).w
      = fun i => ∑ j, (irmTrainRun adam opt0 n).phi i j := by
  refine ⟨irmTrainRun_w adam opt0 n, ?_⟩
  funext i
  simp [irmSolution, dotQ, irmTrainRun_w adam opt0 n, onesQ]

lemma irmSelect_foldl_spec {d : ℕ} (x_val : List (Vec d)) (y_val : List ℚ)
    (train : ℚ → Mat d) (L : List ℚ) (s : IRMSel d) :
    (L.foldl (irmSelStep x_val y_val train) s = s ∨
      ∃ r ∈ L, (L.foldl (irmSelStep x_val y_val train) s).best_phi
          = some (train r) ∧
        (L.foldl (irmSelStep x_val y_val train) s).best_err
          = irmCandErr x_val y_val train r) ∧
    (L.foldl (irmSelStep x_val y_val train) s).best_err ≤ s.best_err ∧
    ∀ r ∈ L, (L.foldl (irmSelStep x_val y_val train) s).best_err
        ≤ irmCandErr x_val y_val train r := by
  induction L generalizing s with
  | nil => exact ⟨Or.inl rfl, le_refl _, by intro r hr; cases hr⟩
  | cons a L ih =>
      rw [List.foldl_cons]
      by_cases hc : irmCandErr x_val y_val train a < s.best_err
      · have hstep : irmSelStep x_val y_val train s a
            = ⟨irmCandErr x_val y_val train a, a, some (train a)⟩ := by
          simp [irmSelStep, hc]
        rw [hstep]
        obtain ⟨h1, h2, h3⟩ := ih ⟨irmCandErr x_val y_val train a, a, some (train a)⟩
        refine ⟨?_, ?_, ?_⟩
        · rcases h1 with h1 | ⟨r, hr, hphi, herr⟩
          · exact Or.inr ⟨a, List.mem_cons_self a L, by rw [h1], by rw [h1]⟩
          · exact Or.inr ⟨r, List.mem_cons_of_mem a hr, hphi, herr⟩
        · exact le_trans h2 (le_of_lt hc)
        · intro r hr
          rcases List.mem_cons.mp hr with h | h
          · subst h; exact h2
          · exact h3 r h
      · have hstep : irmSelStep x_val y_val train s a = s := by
          simp [irmSelStep, hc]
        rw [hstep]
        obtain ⟨h1, h2, h3⟩ := ih s
        refine ⟨?_, h2, ?_⟩
        · rcases h1 with h1 | ⟨r, hr, hphi, herr⟩
          · exact Or.inl h1
          · exact Or.inr ⟨r, List.mem_cons_of_mem a hr, hphi, herr⟩
        · intro r hr
          rcases List.mem_cons.mp hr with h | h
          · subst h; exact le_trans h2 (le_of_not_lt hc)
          · exact h3 r h

/-- Claim C2 (amended): for every list of at least two environments, as
long as some candidate regularization weight attains a validation error on
the held-out last environment strictly below the initial best_err sentinel
1e6, the phi retained by the constructor is that of a candidate achieving
the minimum validation error over the grid. -/
theorem irm_selection_argmin {d : ℕ} (envs : List (Env d))
    (train : List (Env d) → ℚ → Mat d)
    (hlen : 2 ≤ envs.length)
    (h : ∃ r ∈ irmGrid, irmValErrOf envs train r < 1000000) :
    ∃ r ∈ irmGrid,
      (irmConstruct envs train).best_phi = some (train envs.dropLast r) ∧
      ∀ s ∈ irmGrid, irmValErrOf envs train r ≤ irmValErrOf envs train s := by
  obtain ⟨r0, hr0, herr0⟩ := h
  have hspec := irmSelect_foldl_spec (envs.getLastD ⟨[], []⟩).x
    (envs.getLastD ⟨[], []⟩).y (train envs.dropLast) irmGrid
    ⟨1000000, 0, none⟩
  obtain ⟨h1, _, h3⟩ := hspec
  have hfold : irmConstruct envs train
      = irmGrid.foldl (irmSelStep (envs.getLastD ⟨[], []⟩).x
          (envs.getLastD ⟨[], []⟩).y (train envs.dropLast))
        ⟨1000000, 0, none⟩ := rfl
  rcases h1 with h1 | ⟨r, hr, hphi, herr⟩
  · exfalso
    have hle := h3 r0 hr0
    rw [h1] at hle
    have : (1000000 : ℚ) < 1000000 :=
      lt_of_le_of_lt hle herr0
    exact lt_irrefl _ this
  · refine ⟨r, hr, by rw [hfold]; exact hphi, ?_⟩
    intro s hs
    have := h3 s hs
    rw [herr] at this
    exact this

/-- Claim C2 witness: a concrete run in dimension one where the candidate
at reg = 0 validates with zero error, so the selection retains a concrete
minimizing phi. -/
theorem irm_selection_argmin_witness :
    ∃ r ∈ irmGrid,
      (irmConstruct [envOne, envOne] (fun _ _ => eyeQ 1)).best_phi
        = some ((fun _ _ => eyeQ 1) ([envOne, envOne].dropLast) r) ∧
      ∀ s ∈ irmGrid,
        irmValErrOf [envOne, envOne] (fun _ _ => eyeQ 1) r
          ≤ irmValErrOf [envOne, envOne] (fun _ _ => eyeQ 1) s :=
  irm_selection_argmin [envOne, envOne] (fun _ _ => eyeQ 1) (by simp)
    ⟨0, by simp [irmGrid],
      by norm_num [irmValErrOf, irmCandErr, valErr, irmSolution, dotQ, onesQ,
        eyeQ, envOne, Fin.sum_univ_one]⟩

/-- Claim C2 counterexample: with a held-out environment whose features
are zero and whose target is 2000, every candidate's validation error is
4000000, which never beats the initial best_err of 1e6, so best_phi is
never assigned (the Python constructor then faults with an unbound
best_phi at line 50) and no phi achieving the grid minimum is retained. -/
theorem irm_selection_counterexample :
    (irmConstruct [envOne, envFar] (fun _ _ => eyeQ 1)).best_phi = none := by
  norm_num [irmConstruct, irmSelect, irmGrid, irmSelStep, irmCandErr, valErr,
    irmSolution, dotQ, onesQ, eyeQ, envOne, envFar, Fin.sum_univ_one]

/-- Claim C1: AdaBoostERM stores the weighted sum of the classifiers'
coefficient vectors, not the weighted average: with ten classifier weights
of 1/5 and all coefficient vectors equal to 1, the stored vector is 2
while the weighted average is 1. -/
theorem adaBoost_solution_not_average :
    adaCombine (List.replicate numClassifiers ((1 : ℚ)/5))
        (List.replicate numClassifiers (fun _ : Fin 1 => (1 : ℚ)))
      = (fun _ => 2) ∧
    weightedAvgCoefs (List.replicate numClassifiers ((1 : ℚ)/5))
        (List.replicate numClassifiers (fun _ : Fin 1 => (1 : ℚ)))
      = (fun _ => 1) ∧
    adaCombine (List.replicate numClassifiers ((1 : ℚ)/5))
        (List.replicate numClassifiers (fun _ : Fin 1 => (1 : ℚ)))
      ≠ weightedAvgCoefs (List.replicate numClassifiers ((1 : ℚ)/5))
          (List.replicate numClassifiers (fun _ : Fin 1 => (1 : ℚ))) := by
  have h1 : adaCombine (List.replicate numClassifiers ((1 : ℚ)/5))
      (List.replicate numClassifiers (fun _ : Fin 1 => (1 : ℚ)))
      = (fun _ => 2) := by
    funext j
    norm_num [adaCombine, numClassifiers, List.replicate]
  have h2 : weightedAvgCoefs (List.replicate numClassifiers ((1 : ℚ)/5))
      (List.replicate numClassifiers (fun _ : Fin 1 => (1 : ℚ)))
      = (fun _ => 1) := by
    funext j
    norm_num [weightedAvgCoefs, numClassifiers, List.replicate]
  refine ⟨h1, h2, ?_⟩
  rw [h1, h2]
  intro heq
  have h := congrFun heq 0
  norm_num at h

/-- Claim C4: after the first round's multiplicative update, the
environment weights are renormalized by their maximum rather than their
sum, so they no longer sum to 1, violating the precondition of
np.random.choice(len(environments), p=env_weights): with two environments
whose raw errors are 0 and 1, the updated weights are [1, 1], whose sum is
2. -/
theorem adaBoost_env_weights_sum_ne_one :
    adaEnvWeightUpdate [1/2, 1/2] [0, 1] = [1, 1] ∧
    ((adaEnvWeightUpdate [1/2, 1/2] [0, 1]).sum ≠ 1) := by
  have h : adaEnvWeightUpdate [1/2, 1/2] [0, 1] = [1, 1] := by
    norm_num [adaEnvWeightUpdate, normErrors, meanR, maxR, max_def]
  refine ⟨h, ?_⟩
  rw [h]
  norm_num

lemma foldl_max_mem : ∀ (t : List ℝ) (a : ℝ), t.foldl max a ∈ a :: t := by
  intro t
  induction t with
  | nil => intro a; simp
  | cons b t2 ih =>
      intro a
      rw [List.foldl_cons]
      rcases List.mem_cons.mp (ih (max a b)) with h | h
      · rcases max_choice a b with hm | hm
        · rw [h, hm]; exact List.mem_cons_self _ _
        · rw [h, hm]
          exact List.mem_cons_of_mem _ (List.mem_cons_self _ _)
      · exact List.mem_cons_of_mem _ (List.mem_cons_of_mem _ h)

lemma maxR_mem (l : List ℝ) (h : l ≠ []) : maxR l ∈ l := by
  cases l with
  | nil => exact absurd rfl h
  | cons a t => exact foldl_max_mem t a

/-- Claim C9: in a boosting round whose raw per-environment errors are
non-negative with positive maximum, if the average normalized error is
strictly below 1/2 then the classifier weight log((1 - avg)/avg)/2 is
non-negative. -/
theorem adaBoost_classifier_weight_nonneg (l : List ℝ) (h0 : l ≠ [])
    (hpos : ∀ x ∈ l, 0 ≤ x) (hmax : 0 < maxR l)
    (havg : meanR (normErrors l) < 1/2) :
    0 ≤ adaClassifierWeight (meanR (normErrors l)) := by
  have hmem : (1 : ℝ) ∈ normErrors l :=
    List.mem_map.mpr ⟨maxR l, maxR_mem l h0, div_self (ne_of_gt hmax)⟩
  have hnonneg : ∀ x ∈ normErrors l, (0 : ℝ) ≤ x := by
    intro x hx
    obtain ⟨e, he, rfl⟩ := List.mem_map.mp hx
    exact div_nonneg (hpos e he) (le_of_lt hmax)
  have hsum : (1 : ℝ) ≤ (normErrors l).sum :=
    List.single_le_sum hnonneg 1 hmem
  have hlenpos : 0 < ((normErrors l).length : ℝ) := by
    have : normErrors l ≠ [] := by
      intro hnil
      rw [hnil] at hmem
      exact List.not_mem_nil _ hmem
    exact_mod_cast List.length_pos.mpr this
  have havgpos : 0 < meanR (normErrors l) :=
    div_pos (lt_of_lt_of_le one_pos hsum) hlenpos
  have hbeta : 1 ≤ (1 - meanR (normErrors l)) / meanR (normErrors l) := by
    rw [le_div_iff₀ havgpos]
    linarith
  unfold adaClassifierWeight
  have hlog := Real.log_nonneg hbeta
  linarith

/-- Claim C9 witness: the round with raw errors [0, 0, 0, 1] has average
normalized error 1/4 and a non-negative classifier weight. -/
theorem adaBoost_classifier_weight_nonneg_witness :
    0 ≤ adaClassifierWeight (meanR (normErrors [0, 0, 0, 1])) :=
  adaBoost_classifier_weight_nonneg [0, 0, 0, 1] (by simp)
    (by intro x hx; fin_cases hx <;> norm_num)
    (by norm_num [maxR, max_def])
    (by norm_num [normErrors, meanR, maxR, max_def])

lemma icpAccepted_go {d : ℕ} (T : ICPTests)
    (fitL : List (List ℚ) → List ℚ → List ℚ)
    (envs : List (Env d)) (alpha : ℚ)
    (L : List (List (Fin d))) (acc : List (List (Fin d))) (S : List (Fin d)) :
    S ∈ L.foldl (fun acc S =>
        if S.length = 0 then acc
        else if minQ (icpPValues T fitL envs S) * (envs.length : ℚ) > alpha
          then acc ++ [S]
        else acc) acc
      ↔ S ∈ acc ∨ (S ∈ L ∧ S ≠ [] ∧
          minQ (icpPValues T fitL envs S) * (envs.length : ℚ) > alpha) := by
  induction L generalizing acc with
  | nil => simp
  | cons a L ih =>
      rw [List.foldl_cons, ih]
      by_cases h0 : a.length = 0
      · have ha : a = [] := List.length_eq_zero.mp h0
        subst ha
        rw [if_pos h0]
        constructor
        · rintro (h | ⟨hmem, hne, hp⟩)
          · exact Or.inl h
          · exact Or.inr ⟨List.mem_cons_of_mem _ hmem, hne, hp⟩
        · rintro (h | ⟨hmem, hne, hp⟩)
          · exact Or.inl h
          · rcases List.mem_cons.mp hmem with h | h
            · exact absurd h hne
            · exact Or.inr ⟨h, hne, hp⟩
      · rw [if_neg h0]
        have hane : a ≠ [] := fun h => h0 (by rw [h]; rfl)
        by_cases hp : minQ (icpPValues T fitL envs a) * (envs.length : ℚ) > alpha
        · rw [if_pos hp]
          constructor
          · rintro (h | ⟨hmem, hne, hps⟩)
            · rcases List.mem_append.mp h with h | h
              · exact Or.inl h
              · have : S = a := by simpa using h
                subst this
                exact Or.inr ⟨List.mem_cons_self _ _, hane, hp⟩
            · exact Or.inr ⟨List.mem_cons_of_mem _ hmem, hne, hps⟩
          · rintro (h | ⟨hmem, hne, hps⟩)
            · exact Or.inl (List.mem_append.mpr (Or.inl h))
            · rcases List.mem_cons.mp hmem with h | h
              · subst h
                exact Or.inl (List.mem_append.mpr (Or.inr (by simp)))
              · exact Or.inr ⟨h, hne, hps⟩
        · rw [if_neg hp]
          constructor
          · rintro (h | ⟨hmem, hne, hps⟩)
            · exact Or.inl h
            · exact Or.inr ⟨List.mem_cons_of_mem _ hmem, hne, hps⟩
          · rintro (h | ⟨hmem, hne, hps⟩)
            · exact Or.inl h
            · rcases List.mem_cons.mp hmem with h | h
              · subst h
                exact absurd hps hp
              · exact Or.inr ⟨h, hne, hps⟩

/-- Claim C5: a feature subset is accepted by InvariantCausalPrediction
exactly when it is a non-empty subset of the feature indices and the
minimum over environments of the per-environment residual p-value (twice
the minimum of the Welch t-test p-value and the two-sided F-test p-value),
multiplied by the number of environments, is strictly greater than
alpha. -/
theorem icp_accepts_iff {d : ℕ} (T : ICPTests)
    (fitL : List (List ℚ) → List ℚ → List ℚ)
    (envs : List (Env d)) (alpha : ℚ) (S : List (Fin d)) :
    S ∈ icpAcceptedSubsets T fitL envs alpha
      ↔ S ∈ icpPowerset d ∧ S ≠ [] ∧
        minQ (icpPValues T fitL envs S) * (envs.length : ℚ) > alpha := by
  unfold icpAcceptedSubsets
  rw [icpAccepted_go]
  simp

/-- Claim C6: if no feature subset is accepted, or the intersection of the
accepted subsets is empty, the final coefficients are all zero; and in
every case the coordinates outside the intersection are zero while the
coordinates inside it carry the pooled regression refitted on the
intersection's columns. -/
theorem icp_solution_cases {d : ℕ} (T : ICPTests)
    (fitL : List (List ℚ) → List ℚ → List ℚ)
    (envs : List (Env d)) (alpha : ℚ) :
    ((icpAcceptedSubsets T fitL envs alpha = [] ∨
        intersectAll (icpAcceptedSubsets T fitL envs alpha) = []) →
      icpCoefficients T fitL envs alpha = fun _ => 0) ∧
    (∀ j, j ∉ intersectAll (icpAcceptedSubsets T fitL envs alpha) →
      icpCoefficients T fitL envs alpha j = 0) ∧
    (∀ j, j ∈ intersectAll (icpAcceptedSubsets T fitL envs alpha) →
      icpCoefficients T fitL envs alpha j
        = (fitL ((x_allOf envs).map
              (selCols (intersectAll (icpAcceptedSubsets T fitL envs alpha))))
            (y_allOf envs)).getD
            ((intersectAll (icpAcceptedSubsets T fitL envs alpha)).indexOf j)
            0) := by
  refine ⟨?_, ?_, ?_⟩
  · intro h
    simp only [icpCoefficients]
    split_ifs with h1 h2
    · exfalso
      rcases h with h | h
      · exact h1 (by rw [h]; rfl)
      · exact h2 (by rw [h]; rfl)
    · rfl
    · rfl
  · intro j hj
    simp only [icpCoefficients]
    split_ifs with h1 h2
    · simp [hj]
    · rfl
    · rfl
  · intro j hj
    simp only [icpCoefficients]
    split_ifs with h1 h2
    · simp [hj]
    · exfalso
      rw [not_not, List.length_eq_zero] at h2
      rw [h2] at hj
      exact List.not_mem_nil _ hj
    · exfalso
      rw [not_not, List.length_eq_zero] at h1
      rw [h1] at hj
      exact List.not_mem_nil _ (show j ∈ intersectAll ([] : List (List (Fin d))) from hj)

/-- Claim C6 witness: with the trivial primitives (all p-values 0) and a
significance level of 5, no subset is accepted on one concrete
environment, and the final coefficients are all zero. -/
theorem icp_solution_cases_witness :
    icpCoefficients icpTestsZero fitLOne [envOne] 5 = fun _ => 0 :=
  (icp_solution_cases icpTestsZero fitLOne [envOne] 5).1
    (Or.inl (by
      have hps : icpPowerset 1 = [[], [0]] := by decide
      have hpv : icpPValues icpTestsZero fitLOne [envOne] [0] = [0] := by
        norm_num [icpPValues, mean_var_test, residualsOf, selCols, dotL,
          x_allOf, y_allOf, icpTestsZero, fitLOne, envOne,
          show List.range 1 = [0] from rfl, varQ, meanQ]
      simp only [icpAcceptedSubsets, hps, List.foldl_cons, List.foldl_nil]
      norm_num [hpv, minQ]))

end Models
